import Mathlib

/-!
A shallow embedding of the catalog service of the canopy repository
(rust-project: `src/models.rs` and `src/service.rs`), together with proofs of
the behavioural properties stated in the repository's specification.

Modelling choices:

* `u64` ids are modelled as `Nat`.  The `ProductService` model below uses the
  unbounded counter (adequate for every execution that performs fewer than
  `2 ^ 64` creations); the companion `ProductServiceW` model keeps the counter
  as a 64-bit machine word, incrementing modulo `2 ^ 64`, and is used for the
  overflow analysis.
* `f64` prices are modelled as the exact rational values of finite doubles
  (`ℚ`) in the service model; the service never inspects a price, so all
  service-level results hold for arbitrary rationals.  For the display
  formatting the full double domain matters: `F64` models a price as a
  finite value, the negative zero, a NaN or an infinity, and `fmtF64Fixed2`
  embeds `format!("{:.2}", x)` on all of them — correct rounding to two
  digits after the point with ties to even on finite values (`fmtFixed2`),
  and the point-free special forms "NaN", "inf" and "-inf" otherwise.
* `&mut`/`&` references are modelled by explicit state passing; the fallible
  `last().unwrap()` in `add_product` is modelled with `Option` so that its
  infallibility is a theorem rather than an assumption.
-/

namespace Canopy

/-- Embedding of `struct Product` from `models.rs`: id, name, price and the
activation flag. -/
structure Product where
  id : Nat
  name : String
  price : ℚ
  active : Bool
deriving DecidableEq

/-- Rounding of a rational to the nearest integer with ties to even: the
rounding Rust's fixed-precision float formatting applies to the exact value
of the double. -/
def roundHalfEven (q : ℚ) : ℤ :=
  if q - (⌊q⌋ : ℚ) < 1 / 2 then ⌊q⌋
  else if 1 / 2 < q - (⌊q⌋ : ℚ) then ⌊q⌋ + 1
  else if ⌊q⌋ % 2 = 0 then ⌊q⌋ else ⌊q⌋ + 1

/-- The two-digit zero-padded decimal rendering of a number of cents below
one hundred. -/
def twoDigits (c : Nat) : String :=
  String.mk [Nat.digitChar (c / 10), Nat.digitChar (c % 10)]

/-- Embedding of Rust `format!("{:.2}", x)` evaluated at the exact rational
value of a finite double: optional minus sign, the integer part in decimal,
a point, and the two-digit correctly rounded (ties to even) fraction. -/
def fmtFixed2 (q : ℚ) : String :=
  let cents := (roundHalfEven (q * 100)).natAbs
  (if q < 0 then "-" else "") ++ Nat.repr (cents / 100) ++ "." ++ twoDigits (cents % 100)

/-- Embedding of `Product::new` (`models.rs`): caller-supplied id, name and
price, `active` defaulting to `true`, no validation. -/
def Product.new (id : Nat) (name : String) (price : ℚ) : Product :=
  { id := id, name := name, price := price, active := true }

/-- Embedding of `Product::display_price` (`models.rs`):
`format!("${:.2}", self.price)`. -/
def Product.display_price (p : Product) : String :=
  "$" ++ fmtFixed2 p.price

/-- Embedding of `Product::deactivate` (`models.rs`): clears the `active`
flag. -/
def Product.deactivate (p : Product) : Product :=
  { p with active := false }

/-- Embedding of the `Displayable::summary` implementation for `Product`
(`models.rs`): `format!("{} ({})", self.name, self.display_price())`. -/
def Product.summary (p : Product) : String :=
  p.name ++ " (" ++ p.display_price ++ ")"

/-- Embedding of `struct ProductService` (`service.rs`): the growable vector
of products and the next-id counter (here unbounded; see `ProductServiceW`
for the machine-word counter). -/
structure ProductService where
  products : List Product
  next_id : Nat

/-- Embedding of `ProductService::new`: empty collection, counter at 1. -/
def ProductService.new : ProductService :=
  { products := [], next_id := 1 }

/-- Embedding of `ProductService::add_product`: build the product with the
current counter, bump the counter, push, and return `last()` of the updated
vector (the stored element); the `Option` models the `unwrap`ped `last()`. -/
def ProductService.add_product (s : ProductService) (name : String) (price : ℚ) :
    ProductService × Option Product :=
  let product := Product.new s.next_id name price
  let s1 : ProductService :=
    { products := s.products ++ [product], next_id := s.next_id + 1 }
  (s1, s1.products.getLast?)

/-- Embedding of `ProductService::find_by_name`:
`self.products.iter().find(|p| p.name == name)`. -/
def ProductService.find_by_name (s : ProductService) (name : String) : Option Product :=
  s.products.find? (fun p => p.name == name)

/-- Embedding of `ProductService::list_products`: the full collection. -/
def ProductService.list_products (s : ProductService) : List Product :=
  s.products

/-- Embedding of `Iterator::position`: index of the first element satisfying
the predicate. -/
def position (pred : α → Bool) : List α → Option Nat
  | [] => none
  | x :: xs => if pred x then some 0 else (position pred xs).map (fun n => n + 1)

/-- Embedding of `ProductService::remove_product`: find the position of the
first product with the given id; if present, `Vec::remove` it (ordered
delete) and return `true`, otherwise return `false`. -/
def ProductService.remove_product (s : ProductService) (id : Nat) :
    ProductService × Bool :=
  match position (fun p => p.id == id) s.products with
  | some pos => ({ products := s.products.eraseIdx pos, next_id := s.next_id }, true)
  | none => (s, false)

/-- Applying `Product.deactivate` to a stored product when its id matches:
the effect of calling `deactivate` through a mutable reference to the stored
item with the given id. -/
def deactivateIf (id : Nat) (p : Product) : Product :=
  if p.id = id then p.deactivate else p

/-- Deactivating the stored item with the given id inside the service. -/
def ProductService.deactivate_item (s : ProductService) (id : Nat) : ProductService :=
  { products := s.products.map (deactivateIf id), next_id := s.next_id }

/-- The operations a caller can interleave against one service. -/
inductive Op where
  | add (name : String) (price : ℚ)
  | remove (id : Nat)
  | deact (id : Nat)

/-- How many `add` operations a call sequence contains. -/
def countAdds : List Op → Nat
  | [] => 0
  | Op.add _ _ :: rest => countAdds rest + 1
  | Op.remove _ :: rest => countAdds rest
  | Op.deact _ :: rest => countAdds rest

/-- Run a sequence of operations against a service state, recording the id of
every item created by an `add` (read off the product `add_product` returns),
in call order. -/
def runOps : ProductService → List Op → ProductService × List Nat
  | s, [] => (s, [])
  | s, Op.add n p :: rest =>
    let r := s.add_product n p
    let t := runOps r.1 rest
    (t.1, (r.2.map Product.id).toList ++ t.2)
  | s, Op.remove i :: rest => runOps (s.remove_product i).1 rest
  | s, Op.deact i :: rest => runOps (s.deactivate_item i) rest

/-- The size of the `u64` value space. -/
def u64Size : Nat := 2 ^ 64

/-- The catalog service with the id counter kept as a `u64` machine word:
`next_id += 1` wraps modulo `2 ^ 64` (release-profile overflow semantics). -/
structure ProductServiceW where
  products : List Product
  next_id : Nat

/-- Fresh wrap-model service: empty collection, counter at 1. -/
def ProductServiceW.new : ProductServiceW :=
  { products := [], next_id := 1 }

/-- Embedding of `add_product` with the counter incremented modulo `2 ^ 64`. -/
def ProductServiceW.add_product (s : ProductServiceW) (name : String) (price : ℚ) :
    ProductServiceW × Product :=
  let product := Product.new s.next_id name price
  ({ products := s.products ++ [product], next_id := (s.next_id + 1) % u64Size },
    product)

/-- The wrap-model state after a given number of `add_product` calls on a
fresh service (the arguments do not influence the assigned ids). -/
def addsW : Nat → ProductServiceW
  | 0 => ProductServiceW.new
  | k + 1 => ((addsW k).add_product "x" 0).1

/-- The ids stored after a given number of adds in the wrap model. -/
def idsW (k : Nat) : List Nat :=
  (addsW k).products.map Product.id

/-- The id the j-th `add_product` call (1-indexed) assigns in the wrap
model. -/
def idAssignedW (j : Nat) : Nat :=
  (addsW (j - 1)).next_id

/-- The exact rational value of the IEEE-754 binary64 double nearest to 9.99
(the value the literal `9.99` denotes in the driver): 5623870034678907 over
2 ^ 49. -/
def f64Of999 : ℚ :=
  (5623870034678907 : ℚ) / (562949953421312 : ℚ)

/-- Folding a list of (name, price) arguments into successive `add_product`
calls. -/
def addAll : ProductService → List (String × ℚ) → ProductService
  | s, [] => s
  | s, (n, p) :: rest => addAll (s.add_product n p).1 rest

/-- The products a run of `addAll` is expected to store when the counter
starts at `m`: ids `m, m + 1, …`, the given names and prices, all active. -/
def expectedItems : Nat → List (String × ℚ) → List Product
  | _, [] => []
  | m, (n, p) :: rest => Product.new m n p :: expectedItems (m + 1) rest

/-- The value classes of an IEEE-754 binary64 double as Rust's formatter
distinguishes them: a finite value by its exact rational value (the zero
taken positive), the negative zero, a NaN, and the two infinities.  This is
the full domain of `f64` prices the program accepts. -/
inductive F64 where
  | finite (q : ℚ)
  | negzero
  | nan
  | inf
  | neginf
deriving DecidableEq

/-- Whether a double value is finite (negative zero included). -/
def F64.isFinite : F64 → Bool
  | F64.finite _ => true
  | F64.negzero => true
  | _ => false

/-- Embedding of Rust `format!("{:.2}", x)` on a full double value: the
two-decimal fixed-point form on finite values ("-0.00" on the negative
zero), and the special forms "NaN", "inf" and "-inf" — with no decimal
point and no two-digit fraction — on the non-finite values. -/
def fmtF64Fixed2 : F64 → String
  | F64.finite q => fmtFixed2 q
  | F64.negzero => "-0.00"
  | F64.nan => "NaN"
  | F64.inf => "inf"
  | F64.neginf => "-inf"

/-- Embedding of `struct Product` (`models.rs`) with the `f64` price kept as
a full double value, so that the NaN and infinite prices the program accepts
without validation are representable. -/
structure ProductF where
  id : Nat
  name : String
  price : F64
  active : Bool
deriving DecidableEq

/-- Embedding of `Product::new` over full double prices. -/
def ProductF.new (id : Nat) (name : String) (price : F64) : ProductF :=
  { id := id, name := name, price := price, active := true }

/-- Embedding of `Product::display_price` over full double prices:
`format!("${:.2}", self.price)`. -/
def ProductF.display_price (p : ProductF) : String :=
  "$" ++ fmtF64Fixed2 p.price

/-- The output shape the display claim asserts: a dollar sign, an optional
minus sign, the decimal integer part, a point, and exactly two digit
characters. -/
def twoDecimalForm (s : String) : Prop :=
  ∃ (sign : String) (w c : Nat),
    (sign = "" ∨ sign = "-") ∧ c < 100 ∧
    s = "$" ++ sign ++ Nat.repr w ++ "." ++ twoDigits c ∧
    (twoDigits c).length = 2 ∧
    ∀ ch ∈ (twoDigits c).data, ch.isDigit = true

/-! ### Basic facts about the embedded operations -/

lemma add_product_products (s : ProductService) (n : String) (p : ℚ) :
    (s.add_product n p).1.products = s.products ++ [Product.new s.next_id n p] :=
  rfl

lemma add_product_next_id (s : ProductService) (n : String) (p : ℚ) :
    (s.add_product n p).1.next_id = s.next_id + 1 :=
  rfl

lemma add_product_ret (s : ProductService) (n : String) (p : ℚ) :
    (s.add_product n p).2 = some (Product.new s.next_id n p) := by
  show (s.products ++ [Product.new s.next_id n p]).getLast? = _
  exact List.getLast?_concat _

lemma position_eq_none_iff (pred : α → Bool) :
    ∀ l : List α, position pred l = none ↔ ∀ x ∈ l, pred x = false
  | [] => by simp [position]
  | x :: xs => by
    rcases hx : pred x with _ | _
    · simp [position, hx, position_eq_none_iff pred xs]
    · simp [position, hx]

lemma position_append_cons (pred : α → Bool) (a : α) (ha : pred a = true) :
    ∀ (l1 l2 : List α), (∀ x ∈ l1, pred x = false) →
      position pred (l1 ++ a :: l2) = some l1.length
  | [], l2, _ => by simp [position, ha]
  | x :: xs, l2, h => by
    have hx : pred x = false := h x (List.mem_cons_self x xs)
    have ih := position_append_cons pred a ha xs l2
      (fun y hy => h y (List.mem_cons_of_mem x hy))
    simp [position, hx, ih]

lemma eraseIdx_append_cons (a : α) :
    ∀ (l1 l2 : List α), (l1 ++ a :: l2).eraseIdx l1.length = l1 ++ l2
  | [], _ => rfl
  | x :: xs, l2 => by simp [List.eraseIdx, eraseIdx_append_cons a xs l2]

lemma find?_first (pred : α → Bool) :
    ∀ (l : List α) (a : α), l.find? pred = some a →
      pred a = true ∧ ∃ l1 l2, l = l1 ++ a :: l2 ∧ ∀ x ∈ l1, pred x = false
  | [], a => by simp
  | x :: xs, a => by
    rcases hx : pred x with _ | _
    · intro h
      rw [List.find?_cons_of_neg _ (by simp [hx])] at h
      obtain ⟨hpa, l1, l2, hl, hl1⟩ := find?_first pred xs a h
      refine ⟨hpa, x :: l1, l2, by simp [hl], ?_⟩
      intro y hy
      rcases List.mem_cons.mp hy with hyx | hyl
      · exact hyx ▸ hx
      · exact hl1 y hyl
    · intro h
      rw [List.find?_cons_of_pos _ hx] at h
      obtain rfl : x = a := by simpa using h
      exact ⟨hx, [], xs, rfl, by simp⟩

/-! ### Claim theorems about `add_product`, `find_by_name`, `remove_product` -/

/-- C2: for every service state, name and price, `add_product` appends the
new item (current counter value as id, the given name and price, active) at
the end of the collection, increments the counter by one, and returns exactly
the stored last element of the updated collection — in particular it never
returns `none` (the `unwrap` in the source never fails). -/
theorem add_product_contract (s : ProductService) (name : String) (price : ℚ) :
    (s.add_product name price).1.products
      = s.products ++ [{ id := s.next_id, name := name, price := price, active := true }] ∧
    (s.add_product name price).1.next_id = s.next_id + 1 ∧
    (s.add_product name price).2
      = some { id := s.next_id, name := name, price := price, active := true } ∧
    (s.add_product name price).2 = (s.add_product name price).1.products.getLast? ∧
    (s.add_product name price).2 ≠ none := by
  refine ⟨add_product_products s name price, add_product_next_id s name price,
    add_product_ret s name price, ?_, ?_⟩
  · rw [add_product_ret s name price, add_product_products s name price,
      List.getLast?_concat]
  · rw [add_product_ret s name price]
    simp

/-- C3: `find_by_name` returns `none` exactly when no stored item has the
requested name (compared exactly, case-sensitively), and when it returns an
item, that item bears the requested name and is the first such item in
insertion order (every earlier item has a different name); the `active` flag
is not consulted. -/
theorem find_by_name_contract (s : ProductService) (name : String) :
    (s.find_by_name name = none ↔ ∀ p ∈ s.products, p.name ≠ name) ∧
    ∀ p, s.find_by_name name = some p →
      p.name = name ∧ ∃ l1 l2, s.products = l1 ++ p :: l2 ∧ ∀ q ∈ l1, q.name ≠ name := by
  constructor
  · rw [ProductService.find_by_name, List.find?_eq_none]
    simp
  · intro p hp
    obtain ⟨hpa, l1, l2, hl, hl1⟩ := find?_first _ _ _ hp
    refine ⟨by simpa using hpa, l1, l2, hl, ?_⟩
    intro q hq
    have := hl1 q hq
    simpa using this

/-- C5: `remove_product` returns `false` exactly when no stored item has the
requested id; on failure the whole service state is unchanged, and in every
case the `next_id` counter is untouched (the non-success outcome is the
returned boolean, never a fault). -/
theorem remove_product_missing (s : ProductService) (id : Nat) :
    ((s.remove_product id).2 = false ↔ ∀ p ∈ s.products, p.id ≠ id) ∧
    ((s.remove_product id).2 = false → (s.remove_product id).1 = s) ∧
    (s.remove_product id).1.next_id = s.next_id := by
  rcases hpos : position (fun p => p.id == id) s.products with _ | pos
  · have hall := (position_eq_none_iff (fun p => p.id == id) s.products).mp hpos
    refine ⟨?_, ?_, ?_⟩
    · simp only [ProductService.remove_product, hpos]
      simpa using hall
    · intro _
      simp [ProductService.remove_product, hpos]
    · simp [ProductService.remove_product, hpos]
  · refine ⟨?_, ?_, ?_⟩
    · simp only [ProductService.remove_product, hpos]
      constructor
      · intro h
        exact absurd h (by simp)
      · intro hall
        have : position (fun p => p.id == id) s.products = none :=
          (position_eq_none_iff _ _).mpr (by simpa using hall)
        rw [hpos] at this
        exact absurd this (by simp)
    · intro h
      simp [ProductService.remove_product, hpos] at h
    · simp [ProductService.remove_product, hpos]

/-- C4: on a state whose stored ids are pairwise distinct (the §3 invariant,
which every reachable state satisfies), removing an id that is present
succeeds, deletes exactly the item carrying it while keeping the remaining
items in their previous relative order, keeps the counter, and a second
removal of the same id fails. -/
theorem remove_product_existing (s : ProductService) (id : Nat)
    (p : Product) (l1 l2 : List Product)
    (hnd : (s.products.map Product.id).Nodup)
    (hs : s.products = l1 ++ p :: l2) (hp : p.id = id) :
    (s.remove_product id).2 = true ∧
    (s.remove_product id).1.products = l1 ++ l2 ∧
    (s.remove_product id).1.next_id = s.next_id ∧
    ((s.remove_product id).1.remove_product id).2 = false := by
  subst hp
  have hnd2 : ((l1 ++ p :: l2).map Product.id).Nodup := hs ▸ hnd
  rw [List.map_append, List.map_cons, List.nodup_append] at hnd2
  obtain ⟨-, h2, hdisj⟩ := hnd2
  rw [List.nodup_cons] at h2
  obtain ⟨hp2, -⟩ := h2
  have hl1 : ∀ x ∈ l1, (x.id == p.id) = false := by
    intro x hx
    have hmem : x.id ∈ l1.map Product.id := List.mem_map_of_mem _ hx
    have hne : x.id ≠ p.id := by
      intro hEq
      rw [hEq] at hmem
      exact hdisj hmem (List.mem_cons_self _ _)
    simp [hne]
  have hl2 : ∀ x ∈ l2, (x.id == p.id) = false := by
    intro x hx
    have hmem : x.id ∈ l2.map Product.id := List.mem_map_of_mem _ hx
    have hne : x.id ≠ p.id := fun hEq => hp2 (hEq ▸ hmem)
    simp [hne]
  have hpos : position (fun q => q.id == p.id) s.products = some l1.length := by
    rw [hs]
    exact position_append_cons _ p (by simp) l1 l2 hl1
  have hrm1 : s.remove_product p.id
      = ({ products := s.products.eraseIdx l1.length, next_id := s.next_id }, true) := by
    simp [ProductService.remove_product, hpos]
  have herase : s.products.eraseIdx l1.length = l1 ++ l2 := by
    rw [hs, eraseIdx_append_cons]
  refine ⟨by simp [hrm1], by simp [hrm1, herase], by simp [hrm1], ?_⟩
  have hnone : position (fun q => q.id == p.id) (s.products.eraseIdx l1.length) = none := by
    rw [herase]
    apply (position_eq_none_iff _ _).mpr
    intro x hx
    rcases List.mem_append.mp hx with h | h
    · exact hl1 x h
    · exact hl2 x h
  rw [hrm1]
  simp [ProductService.remove_product, hnone]

/-- Witness for `remove_product_existing`: a service holding items 1 and 2,
with id 1 removed. -/
theorem remove_product_existing_witness :
    ((ProductService.mk [Product.new 1 "a" 0, Product.new 2 "b" 0] 3).remove_product 1).2
        = true ∧
    ((ProductService.mk [Product.new 1 "a" 0, Product.new 2 "b" 0] 3).remove_product 1).1.products
        = [] ++ [Product.new 2 "b" 0] ∧
    ((ProductService.mk [Product.new 1 "a" 0, Product.new 2 "b" 0] 3).remove_product 1).1.next_id
        = (ProductService.mk [Product.new 1 "a" 0, Product.new 2 "b" 0] 3).next_id ∧
    ((((ProductService.mk [Product.new 1 "a" 0, Product.new 2 "b" 0] 3).remove_product
        1).1).remove_product 1).2 = false :=
  remove_product_existing (ProductService.mk [Product.new 1 "a" 0, Product.new 2 "b" 0] 3)
    1 (Product.new 1 "a" 0) [] [Product.new 2 "b" 0] (by simp [Product.new]) rfl rfl

lemma addAll_spec :
    ∀ (args : List (String × ℚ)) (s : ProductService),
      (addAll s args).products = s.products ++ expectedItems s.next_id args ∧
      (addAll s args).next_id = s.next_id + args.length
  | [], s => by simp [addAll, expectedItems]
  | (n, p) :: rest, s => by
    have ih := addAll_spec rest (s.add_product n p).1
    rw [show addAll s ((n, p) :: rest) = addAll (s.add_product n p).1 rest from rfl]
    constructor
    · rw [ih.1, add_product_products, add_product_next_id, expectedItems]
      simp
    · rw [ih.2, add_product_next_id, List.length_cons]
      omega

lemma expectedItems_length : ∀ (m : Nat) (args : List (String × ℚ)),
    (expectedItems m args).length = args.length
  | _, [] => rfl
  | m, (n, p) :: rest => by
    rw [expectedItems, List.length_cons, expectedItems_length (m + 1) rest, List.length_cons]

/-- C6: `list_products` is the full stored collection (no filtering of any
kind, in particular not by `active`), and after adding a list of
(name, price) arguments to a fresh service and removing nothing it holds
exactly those items, in the order added, with ids 1, 2, … . -/
theorem list_products_contract :
    (∀ s : ProductService, s.list_products = s.products) ∧
    ∀ args : List (String × ℚ),
      (addAll ProductService.new args).list_products = expectedItems 1 args ∧
      (addAll ProductService.new args).list_products.length = args.length := by
  refine ⟨fun _ => rfl, fun args => ?_⟩
  have h := (addAll_spec args ProductService.new).1
  have hl : (addAll ProductService.new args).list_products = expectedItems 1 args := by
    show (addAll ProductService.new args).products = _
    rw [h]
    rfl
  exact ⟨hl, by rw [hl, expectedItems_length]⟩

lemma deactivateIf_name (i : Nat) (p : Product) : (deactivateIf i p).name = p.name := by
  unfold deactivateIf
  split <;> rfl

lemma find?_map_of_invariant (f : α → α) (pred : α → Bool)
    (hf : ∀ x, pred (f x) = pred x) :
    ∀ l : List α, (l.map f).find? pred = (l.find? pred).map f
  | [] => rfl
  | x :: xs => by
    rcases hx : pred x with _ | _
    · rw [List.map_cons, List.find?_cons_of_neg _ (by simp [hf, hx]),
        List.find?_cons_of_neg _ (by simp [hx])]
      exact find?_map_of_invariant f pred hf xs
    · rw [List.map_cons, List.find?_cons_of_pos _ (by simp [hf, hx]),
        List.find?_cons_of_pos _ hx]
      rfl

/-- C7: `deactivate` clears the `active` flag, changes nothing else, and is
idempotent; deactivating a stored item changes the outcome of `find_by_name`
and `list_products` only by that flag (same item found, same items listed, in
the same order — inactive items stay visible). -/
theorem deactivate_contract :
    (∀ p : Product, p.deactivate.active = false ∧
      p.deactivate.deactivate = p.deactivate ∧
      p.deactivate.id = p.id ∧ p.deactivate.name = p.name ∧
      p.deactivate.price = p.price) ∧
    ∀ (s : ProductService) (i : Nat) (name : String),
      (s.deactivate_item i).find_by_name name
          = (s.find_by_name name).map (deactivateIf i) ∧
      (s.deactivate_item i).list_products = s.list_products.map (deactivateIf i) ∧
      (s.deactivate_item i).list_products.length = s.list_products.length := by
  refine ⟨fun p => ⟨rfl, rfl, rfl, rfl, rfl⟩, fun s i name => ⟨?_, rfl, ?_⟩⟩
  · show (s.products.map (deactivateIf i)).find? (fun p => p.name == name) = _
    exact find?_map_of_invariant _ _ (fun x => by rw [deactivateIf_name]) s.products
  · show (s.products.map (deactivateIf i)).length = s.products.length
    exact List.length_map _ _

lemma remove_product_next_id (s : ProductService) (i : Nat) :
    (s.remove_product i).1.next_id = s.next_id := by
  rcases hpos : position (fun p => p.id == i) s.products with _ | pos <;>
    simp [ProductService.remove_product, hpos]

lemma runOps_ids : ∀ (ops : List Op) (s : ProductService),
    (runOps s ops).2 = List.range' s.next_id (countAdds ops)
  | [], _ => rfl
  | Op.add n p :: rest, s => by
    have ih := runOps_ids rest (s.add_product n p).1
    simp only [runOps]
    rw [add_product_ret, ih, add_product_next_id, countAdds]
    simp [Product.new, List.range']
  | Op.remove i :: rest, s => by
    have ih := runOps_ids rest (s.remove_product i).1
    simp only [runOps]
    rw [ih, remove_product_next_id, countAdds]
  | Op.deact i :: rest, s => by
    have ih := runOps_ids rest (s.deactivate_item i)
    simp only [runOps]
    rw [ih, countAdds]
    rfl

/-- C1: for every sequence of operations on a fresh service — adds
interleaved with arbitrary removals and deactivations — the ids handed out
to the created items are exactly 1, 2, 3, … in call order: the list of
assigned ids is `[1, …, number of adds]`, strictly increasing, with no gaps
and no id reused even after an intervening removal. -/
theorem ids_consecutive (ops : List Op) :
    (runOps ProductService.new ops).2 = List.range' 1 (countAdds ops) ∧
    (runOps ProductService.new ops).2.Pairwise (· < ·) ∧
    (runOps ProductService.new ops).2.Nodup := by
  have h := runOps_ids ops ProductService.new
  have hpw : (runOps ProductService.new ops).2.Pairwise (· < ·) := by
    rw [h]
    exact List.pairwise_lt_range' 1 (countAdds ops)
  exact ⟨h, hpw, hpw.imp Nat.ne_of_lt⟩

lemma addsW_next_id : ∀ k : Nat, (addsW k).next_id = (1 + k) % u64Size
  | 0 => by
    show (1 : Nat) = (1 + 0) % u64Size
    rw [Nat.add_zero, Nat.mod_eq_of_lt (by norm_num [u64Size])]
  | k + 1 => by
    show ((addsW k).next_id + 1) % u64Size = _
    rw [addsW_next_id k, Nat.mod_add_mod, Nat.add_assoc]

lemma idsW_succ (k : Nat) : idsW (k + 1) = idsW k ++ [(1 + k) % u64Size] := by
  show ((addsW k).products ++ [Product.new (addsW k).next_id "x" 0]).map Product.id = _
  rw [List.map_append, addsW_next_id k]
  rfl

lemma idsW_eq : ∀ k : Nat, idsW k = (List.range k).map (fun i => (1 + i) % u64Size)
  | 0 => rfl
  | k + 1 => by
    rw [idsW_succ, idsW_eq k, List.range_succ, List.map_append]
    rfl

lemma idAssignedW_eq (j : Nat) : idAssignedW j = (1 + (j - 1)) % u64Size :=
  addsW_next_id (j - 1)

lemma range'_of_map_mod : ∀ (k m : Nat), m + k ≤ u64Size →
    (List.range k).map (fun i => (m + i) % u64Size) = List.range' m k
  | 0, _, _ => rfl
  | k + 1, m, h => by
    have hu : (1 : Nat) ≤ u64Size := by norm_num [u64Size]
    rw [List.range_succ_eq_map, List.map_cons, List.map_map]
    have h1 : ∀ i ∈ List.range k,
        ((fun i => (m + i) % u64Size) ∘ Nat.succ) i
          = (fun i => ((m + 1) + i) % u64Size) i := by
      intro i _
      show (m + (i + 1)) % u64Size = ((m + 1) + i) % u64Size
      congr 1
      omega
    rw [List.map_congr_left h1, range'_of_map_mod k (m + 1) (by omega)]
    have hm : (m + 0) % u64Size = m := by
      rw [Nat.add_zero]
      exact Nat.mod_eq_of_lt (by omega)
    rw [hm]
    rfl

/-- C10: the id counter is a 64-bit word bumped with unchecked addition.  In
the model where the increment wraps modulo `2 ^ 64` (release-profile overflow
semantics): as long as fewer than `2 ^ 64 - 1` items have been created the
assigned ids are still exactly 1, 2, 3, …; a service whose counter holds
`2 ^ 64 - 1` assigns that id and wraps the counter back to 0 on the next
creation; and on a fresh service, creation number `2 ^ 64 + 1` is assigned
id 1 again — the same id as the very first creation, so ids eventually
repeat (creation number `2 ^ 64` gets id 0, breaking strict monotonicity
first). -/
theorem next_id_u64_wrap :
    (∀ k : Nat, k < u64Size - 1 → idsW k = List.range' 1 k) ∧
    (∀ (s : ProductServiceW) (name : String) (price : ℚ),
      s.next_id = u64Size - 1 →
        (s.add_product name price).1.next_id = 0 ∧
        (s.add_product name price).2.id = u64Size - 1) ∧
    idAssignedW (u64Size - 1) = u64Size - 1 ∧
    idAssignedW u64Size = 0 ∧
    idAssignedW (u64Size + 1) = 1 ∧
    idAssignedW 1 = 1 := by
  have hu : (2 : Nat) ≤ u64Size := by norm_num [u64Size]
  refine ⟨?_, ?_, ?_, ?_, ?_, ?_⟩
  · intro k hk
    rw [idsW_eq, range'_of_map_mod k 1 (by omega)]
  · intro s name price h
    constructor
    · show (s.next_id + 1) % u64Size = 0
      rw [h, Nat.sub_add_cancel (by omega), Nat.mod_self]
    · show s.next_id = u64Size - 1
      exact h
  · rw [idAssignedW_eq, show 1 + (u64Size - 1 - 1) = u64Size - 1 by omega,
      Nat.mod_eq_of_lt (by omega)]
  · rw [idAssignedW_eq, show 1 + (u64Size - 1) = u64Size by omega, Nat.mod_self]
  · rw [idAssignedW_eq, show 1 + (u64Size + 1 - 1) = 1 + u64Size by omega,
      Nat.add_mod_right, Nat.mod_eq_of_lt (by omega)]
  · rw [idAssignedW_eq, show 1 + (1 - 1 : Nat) = 1 by omega,
      Nat.mod_eq_of_lt (by omega)]

lemma floor_f999_mul : ⌊f64Of999 * 100⌋ = (999 : ℤ) := by
  rw [show f64Of999 * 100 = 999 + 3 / 140737488355328 by norm_num [f64Of999]]
  rw [Int.floor_eq_iff]
  norm_num

lemma roundHalfEven_f999 : roundHalfEven (f64Of999 * 100) = 999 := by
  have hlt : f64Of999 * 100 - ((999 : ℤ) : ℚ) < 1 / 2 := by
    rw [show f64Of999 * 100 = 999 + 3 / 140737488355328 by norm_num [f64Of999]]
    norm_num
  simp only [roundHalfEven]
  rw [floor_f999_mul, if_pos hlt]

lemma fmtFixed2_f999 : fmtFixed2 f64Of999 = "9.99" := by
  have hneg : ¬ (f64Of999 < 0) := by norm_num [f64Of999]
  simp only [fmtFixed2]
  rw [roundHalfEven_f999, if_neg hneg]
  rfl

lemma roundHalfEven_zero : roundHalfEven ((0 : ℚ) * 100) = 0 := by
  have h0 : ⌊(0 : ℚ) * 100⌋ = (0 : ℤ) := by norm_num
  have hlt : (0 : ℚ) * 100 - ((0 : ℤ) : ℚ) < 1 / 2 := by norm_num
  simp only [roundHalfEven]
  rw [h0, if_pos hlt]

lemma fmtFixed2_zero : fmtFixed2 0 = "0.00" := by
  have hneg : ¬ ((0 : ℚ) < 0) := by norm_num
  simp only [fmtFixed2]
  rw [roundHalfEven_zero, if_neg hneg]
  rfl

lemma string_data_append (a b : String) : (a ++ b).data = a.data ++ b.data := by
  cases a
  cases b
  rfl

lemma fmtFixed2_shape (q : ℚ) : twoDecimalForm ("$" ++ fmtFixed2 q) := by
  refine ⟨if q < 0 then "-" else "",
    (roundHalfEven (q * 100)).natAbs / 100,
    (roundHalfEven (q * 100)).natAbs % 100,
    ?_, Nat.mod_lt _ (by norm_num), ?_, rfl, ?_⟩
  · by_cases h : q < 0 <;> simp [h]
  · simp only [fmtFixed2]
    simp [String.append_assoc]
  · intro ch hch
    have hd : ∀ d : Nat, d < 10 → (Nat.digitChar d).isDigit = true := by decide
    have h1 : (roundHalfEven (q * 100)).natAbs % 100 / 10 < 10 := by omega
    have h2 : (roundHalfEven (q * 100)).natAbs % 100 % 10 < 10 := by omega
    have hch2 : ch ∈
        [Nat.digitChar ((roundHalfEven (q * 100)).natAbs % 100 / 10),
         Nat.digitChar ((roundHalfEven (q * 100)).natAbs % 100 % 10)] := hch
    rcases List.mem_cons.mp hch2 with rfl | hch3
    · exact hd _ h1
    · rcases List.mem_singleton.mp hch3 with rfl
      exact hd _ h2

/-- C8 (amended): over the full domain of `f64` prices, `display_price`
renders a finite price (negative zero included) as a dollar sign, an
optional minus sign, the decimal integer part, a point, and exactly two
digit characters; a NaN or infinite price — which the program accepts — is
rendered as "$NaN", "$inf" or "$-inf", with no two-decimal form; in
particular the double 9.99 yields "$9.99" and 0.0 yields "$0.00". -/
theorem display_price_f64_contract :
    (∀ p : ProductF, p.price.isFinite = true → twoDecimalForm p.display_price) ∧
    (∀ p : ProductF, p.price = F64.nan → p.display_price = "$NaN") ∧
    (∀ p : ProductF, p.price = F64.inf → p.display_price = "$inf") ∧
    (∀ p : ProductF, p.price = F64.neginf → p.display_price = "$-inf") ∧
    (ProductF.new 1 "Widget" (F64.finite f64Of999)).display_price = "$9.99" ∧
    (ProductF.new 2 "Zero" (F64.finite 0)).display_price = "$0.00" := by
  refine ⟨?_, ?_, ?_, ?_, ?_, ?_⟩
  · intro p h
    show twoDecimalForm ("$" ++ fmtF64Fixed2 p.price)
    rcases hpr : p.price with q | _ | _ | _ | _
    · exact fmtFixed2_shape q
    · refine ⟨"-", 0, 0, Or.inr rfl, by norm_num, by decide, rfl, by decide⟩
    · rw [hpr] at h
      simp [F64.isFinite] at h
    · rw [hpr] at h
      simp [F64.isFinite] at h
    · rw [hpr] at h
      simp [F64.isFinite] at h
  · intro p h
    show "$" ++ fmtF64Fixed2 p.price = "$NaN"
    rw [h]
    rfl
  · intro p h
    show "$" ++ fmtF64Fixed2 p.price = "$inf"
    rw [h]
    rfl
  · intro p h
    show "$" ++ fmtF64Fixed2 p.price = "$-inf"
    rw [h]
    rfl
  · show "$" ++ fmtFixed2 f64Of999 = "$9.99"
    rw [fmtFixed2_f999]
    rfl
  · show "$" ++ fmtFixed2 0 = "$0.00"
    rw [fmtFixed2_zero]
    rfl

/-- Counterexample to C8 as stated: an item priced at NaN — accepted by the
program — is displayed as "$NaN", which is not a dollar sign followed by a
number with exactly two decimal places (it contains no decimal point at
all). -/
theorem display_price_nan_cex :
    (ProductF.new 1 "nanPriced" F64.nan).display_price = "$NaN" ∧
    ¬ twoDecimalForm ((ProductF.new 1 "nanPriced" F64.nan).display_price) := by
  have hd : (ProductF.new 1 "nanPriced" F64.nan).display_price = "$NaN" := rfl
  refine ⟨hd, ?_⟩
  rintro ⟨sign, w, c, -, -, heq, -, -⟩
  rw [hd] at heq
  have h1 : ('.' : Char) ∈ ("$" ++ sign ++ Nat.repr w ++ "." ++ twoDigits c).data := by
    rw [string_data_append, string_data_append, string_data_append, string_data_append]
    exact List.mem_append_left _ (List.mem_append_right _ (by decide))
  rw [← heq] at h1
  have h2 : ('.' : Char) ∉ ("$NaN").data := by decide
  exact h2 h1

/-- C9: `summary` is exactly the name, a space, and the rendered price in
parentheses; on the Widget at the double 9.99 it yields "Widget ($9.99)". -/
theorem summary_contract :
    (∀ p : Product, p.summary = p.name ++ " (" ++ p.display_price ++ ")") ∧
    (Product.new 1 "Widget" f64Of999).summary = "Widget ($9.99)" := by
  refine ⟨fun p => rfl, ?_⟩
  show "Widget" ++ " (" ++ ("$" ++ fmtFixed2 f64Of999) ++ ")" = "Widget ($9.99)"
  rw [fmtFixed2_f999]
  rfl

end Canopy
